import Mathlib

/-!
Verification of the dependency-graph and ordered-emission core of
`gulp-npmworkspace`.

The repository source under scrutiny consists of:
* `src/Plugins/utilities/PackageDependencyContext.ts` — the package
  registry and the stream emission in dependency order;
* `src/Plugins/UninstallPackages.ts` — the uninstall action with its
  post-actions and its structured error;
* `src/NpmWorkspacePluginOptions.ts` — the workspace option resolver.

The `DepGraph` class consumed by `PackageDependencyContext` comes from the
external `dependency-graph` npm package, whose code is not part of the
repository sources; its operations are modelled from the specification
(sections 4.1, 7 and 9).  The per-package pipeline driver
(`packageDescriptorPlugin`) is likewise absent from the sources and is
modelled from the specification (sections 4.4 and 7).  Everything else is
translated directly from the TypeScript files.
-/

namespace GulpNpmWorkspace

/-- Structural traversal failures (spec section 7): a cycle in the induced
subgraph, or a traversal request for a node that was never registered. -/
inductive GraphError where
  | cycleError
  | unknownNodeError
deriving DecidableEq, Repr

instance {ε α : Type} [DecidableEq ε] [DecidableEq α] : DecidableEq (Except ε α)
  | .ok a, .ok b =>
    if h : a = b then .isTrue (by rw [h])
    else .isFalse (by intro hh; cases hh; exact h rfl)
  | .ok _, .error _ => .isFalse (by intro h; cases h)
  | .error _, .ok _ => .isFalse (by intro h; cases h)
  | .error e, .error e' =>
    if h : e = e' then .isTrue (by rw [h])
    else .isFalse (by intro hh; cases hh; exact h rfl)

/-- An adjacency assignment: for each package name, the list of names it
directly depends on, in edge-insertion order. -/
abbrev Adj := String → List String

/-- Sequentially visits a worklist of nodes with a node-visitor `f`,
threading the accumulated emission order and propagating the first error.
This mirrors the `forEach` loops of the DFS in the `dependency-graph`
library as described by the spec (section 9: iterative traversal with
explicit markers). -/
def foldVisit (f : List String → String → Except GraphError (List String)) :
    List String → List String → Except GraphError (List String)
  | order, [] => .ok order
  | order, m :: ms =>
    match f order m with
    | .error e => .error e
    | .ok o1 => foldVisit f o1 ms

/-- Modelled from the spec: depth-first post-order visit of one node of the
dependency graph (spec sections 4.1 and 9), with a `visiting` stack for
explicit cycle detection and the already-emitted `order` acting as the
visited set.  A node already emitted is skipped; a node found on the
visiting stack is a cycle; otherwise all its dependencies are visited first
(in edge-insertion order) and the node is appended after them.  The fuel
argument bounds the recursion depth; the callers supply one more than the
number of registered nodes, which the visiting-stack invariant shows is
never exhausted on well-formed graphs. -/
def visitNode (adj : Adj) : Nat → List String → List String → String →
    Except GraphError (List String)
  | 0, _, _, _ => .error .cycleError
  | fuel + 1, visiting, order, n =>
    if n ∈ order then .ok order
    else if n ∈ visiting then .error .cycleError
    else
      match foldVisit (fun o m => visitNode adj fuel (n :: visiting) o m) order (adj n) with
      | .error e => .error e
      | .ok o1 => .ok (o1 ++ [n])

/-- Modelled from the spec: the dependency graph — a set of package-name
nodes in insertion order, plus dependency edges `(dependant, dependency)`
in insertion order (spec section 3). -/
structure DepGraph where
  nodes : List String
  edges : List (String × String)
deriving DecidableEq, Repr

/-- The empty graph. -/
def DepGraph.empty : DepGraph := ⟨[], []⟩

/-- Modelled from the spec: `addNode(name)` — idempotent; registers the
name if absent (spec section 4.1). -/
def DepGraph.addNode (g : DepGraph) (n : String) : DepGraph :=
  if n ∈ g.nodes then g else ⟨g.nodes ++ [n], g.edges⟩

/-- Records an edge if it is not already present. -/
def DepGraph.addEdge (g : DepGraph) (dependant dependency : String) : DepGraph :=
  if (dependant, dependency) ∈ g.edges then g
  else ⟨g.nodes, g.edges ++ [(dependant, dependency)]⟩

/-- Modelled from the spec: `addDependency(dependant, dependency)` —
idempotent; adds both nodes if absent, then records the edge (spec
section 4.1). -/
def DepGraph.addDependency (g : DepGraph) (dependant dependency : String) : DepGraph :=
  ((g.addNode dependant).addNode dependency).addEdge dependant dependency

/-- The adjacency list of a node: the recorded dependencies of `n`, in
edge-insertion order. -/
def DepGraph.adjOf (g : DepGraph) : Adj := fun n =>
  (g.edges.filter (fun e => e.1 = n)).map (fun e => e.2)

/-- Modelled from the spec: `overallOrder()` — topological order of the
entire graph, ties broken by node-insertion order; fails with `CycleError`
on a cycle (spec section 4.1). -/
def DepGraph.overallOrder (g : DepGraph) : Except GraphError (List String) :=
  foldVisit (fun o n => visitNode g.adjOf (g.nodes.length + 1) [] o n) [] g.nodes

/-- Modelled from the spec: `dependenciesOf(name)` — every package
transitively reachable from `name` in a valid topological order of the
induced subgraph, the target itself removed from the result; fails with
`CycleError` on a cycle and with `UnknownNodeError` when `name` was never
registered (spec section 4.1). -/
def DepGraph.dependenciesOf (g : DepGraph) (name : String) : Except GraphError (List String) :=
  if name ∈ g.nodes then
    match visitNode g.adjOf (g.nodes.length + 1) [] [] name with
    | .error e => .error e
    | .ok order => .ok (order.erase name)
  else .error .unknownNodeError

/-- One dependency step: `y` is a direct dependency of `x`. -/
def Step (adj : Adj) (x y : String) : Prop := y ∈ adj x

/-- Nonempty-path reachability along dependency edges. -/
def Reaches (adj : Adj) : String → String → Prop := Relation.TransGen (Step adj)

/-- A graph is acyclic when no node reaches itself through a nonempty
path. -/
def Acyclic (adj : Adj) : Prop := ∀ n, ¬ Reaches adj n n

/-- A partially built emission order is good when it has no duplicates and
every already-emitted node has all of its direct dependencies emitted
strictly before it. -/
def GoodOrder (adj : Adj) (order : List String) : Prop :=
  order.Nodup ∧
    ∀ a ∈ order, ∀ b ∈ adj a, b ∈ order ∧ order.indexOf b < order.indexOf a

section GraphLemmas

variable {adj : Adj}

theorem foldVisit_mono {f : List String → String → Except GraphError (List String)}
    (hf : ∀ o m o', f o m = .ok o' → ∃ ext, o' = o ++ ext) :
    ∀ (ms o o' : List String), foldVisit f o ms = .ok o' → ∃ ext, o' = o ++ ext := by
  intro ms
  induction ms with
  | nil =>
    intro o o' h
    simp only [foldVisit, Except.ok.injEq] at h
    exact ⟨[], by rw [h, List.append_nil]⟩
  | cons m ms ih =>
    intro o o' h
    cases hm : f o m with
    | error e => simp only [foldVisit, hm] at h; exact Except.noConfusion h
    | ok o1 =>
      simp only [foldVisit, hm] at h
      obtain ⟨ext1, rfl⟩ := hf o m o1 hm
      obtain ⟨ext2, rfl⟩ := ih _ _ h
      exact ⟨ext1 ++ ext2, by rw [List.append_assoc]⟩

theorem foldVisit_mem {f : List String → String → Except GraphError (List String)}
    (hmono : ∀ o m o', f o m = .ok o' → ∃ ext, o' = o ++ ext)
    (hmem : ∀ o m o', f o m = .ok o' → m ∈ o') :
    ∀ (ms o o' : List String), foldVisit f o ms = .ok o' → ∀ m ∈ ms, m ∈ o' := by
  intro ms
  induction ms with
  | nil => intro o o' _ m hm; cases hm
  | cons m ms ih =>
    intro o o' h x hx
    cases hm : f o m with
    | error e => simp only [foldVisit, hm] at h; exact Except.noConfusion h
    | ok o1 =>
      simp only [foldVisit, hm] at h
      rcases List.mem_cons.mp hx with rfl | hx
      · obtain ⟨ext, rfl⟩ := foldVisit_mono hmono ms o1 o' h
        exact List.mem_append_left _ (hmem o x o1 hm)
      · exact ih o1 o' h x hx

theorem foldVisit_fresh {f : List String → String → Except GraphError (List String)}
    (S : List String)
    (hf : ∀ o m o', f o m = .ok o' → ∀ x ∈ S, x ∉ o → x ∉ o') :
    ∀ (ms o o' : List String), foldVisit f o ms = .ok o' → ∀ x ∈ S, x ∉ o → x ∉ o' := by
  intro ms
  induction ms with
  | nil =>
    intro o o' h x hx hxo
    simp only [foldVisit, Except.ok.injEq] at h
    rw [← h]; exact hxo
  | cons m ms ih =>
    intro o o' h x hx hxo
    cases hm : f o m with
    | error e => simp only [foldVisit, hm] at h; exact Except.noConfusion h
    | ok o1 =>
      simp only [foldVisit, hm] at h
      exact ih o1 o' h x hx (hf o m o1 hm x hx hxo)

theorem foldVisit_err {f : List String → String → Except GraphError (List String)}
    (hf : ∀ o m e, f o m = .error e → e = .cycleError) :
    ∀ (ms o : List String) (e : GraphError), foldVisit f o ms = .error e → e = .cycleError := by
  intro ms
  induction ms with
  | nil => intro o e h; simp only [foldVisit] at h; exact Except.noConfusion h
  | cons m ms ih =>
    intro o e h
    cases hm : f o m with
    | error e' =>
      simp only [foldVisit, hm, Except.error.injEq] at h
      rw [← h]; exact hf o m e' hm
    | ok o1 =>
      simp only [foldVisit, hm] at h
      exact ih o1 e h

theorem foldVisit_ok {f : List String → String → Except GraphError (List String)} :
    ∀ ms : List String, (∀ m ∈ ms, ∀ o, ∃ o', f o m = .ok o') →
      ∀ o, ∃ o', foldVisit f o ms = .ok o' := by
  intro ms
  induction ms with
  | nil => intro _ o; exact ⟨o, rfl⟩
  | cons m ms ih =>
    intro hf o
    obtain ⟨o1, h1⟩ := hf m (List.mem_cons_self m ms) o
    obtain ⟨o', h2⟩ := ih (fun x hx => hf x (List.mem_cons_of_mem m hx)) o1
    exact ⟨o', by simp only [foldVisit, h1]; exact h2⟩

theorem visitNode_spec :
    ∀ (fuel : Nat) (visiting order : List String) (n : String) (order' : List String),
      visitNode adj fuel visiting order n = .ok order' →
      (∃ ext, order' = order ++ ext) ∧ n ∈ order' ∧
        (∀ x ∈ visiting, x ∉ order → x ∉ order') := by
  intro fuel
  induction fuel with
  | zero => intro visiting order n order' h; simp only [visitNode] at h; exact Except.noConfusion h
  | succ fuel ih =>
    intro visiting order n order' h
    simp only [visitNode] at h
    by_cases h1 : n ∈ order
    · rw [if_pos h1] at h
      simp only [Except.ok.injEq] at h
      subst h
      exact ⟨⟨[], (List.append_nil _).symm⟩, h1, fun x _ hxo => hxo⟩
    · rw [if_neg h1] at h
      by_cases h2 : n ∈ visiting
      · rw [if_pos h2] at h; cases h
      · rw [if_neg h2] at h
        cases hfold : foldVisit (fun o m => visitNode adj fuel (n :: visiting) o m)
            order (adj n) with
        | error e => rw [hfold] at h; cases h
        | ok o1 =>
          rw [hfold] at h
          simp only [Except.ok.injEq] at h
          subst h
          have hmono : ∀ o m o', visitNode adj fuel (n :: visiting) o m = .ok o' →
              ∃ ext, o' = o ++ ext := fun o m o' hh => (ih _ o m o' hh).1
          obtain ⟨ext, rfl⟩ := foldVisit_mono hmono (adj n) order o1 hfold
          refine ⟨⟨ext ++ [n], by rw [List.append_assoc]⟩,
            List.mem_append_right _ (List.mem_singleton.mpr rfl), ?_⟩
          intro x hx hxo
          have hfr : ∀ o m o', visitNode adj fuel (n :: visiting) o m = .ok o' →
              ∀ y ∈ (n :: visiting), y ∉ o → y ∉ o' :=
            fun o m o' hh y hy hyo => (ih _ o m o' hh).2.2 y hy hyo
          have hx1 : x ∉ order ++ ext :=
            foldVisit_fresh (n :: visiting) hfr (adj n) order _ hfold x
              (List.mem_cons_of_mem n hx) hxo
          have hxn : x ≠ n := fun hxe => h2 (hxe ▸ hx)
          intro hc
          rcases List.mem_append.mp hc with hc | hc
          · exact hx1 hc
          · exact hxn (List.mem_singleton.mp hc)

theorem visitNode_err :
    ∀ (fuel : Nat) (visiting order : List String) (n : String) (e : GraphError),
      visitNode adj fuel visiting order n = .error e → e = .cycleError := by
  intro fuel
  induction fuel with
  | zero =>
    intro visiting order n e h
    simp only [visitNode, Except.error.injEq] at h
    exact h.symm
  | succ fuel ih =>
    intro visiting order n e h
    simp only [visitNode] at h
    by_cases h1 : n ∈ order
    · rw [if_pos h1] at h; cases h
    · rw [if_neg h1] at h
      by_cases h2 : n ∈ visiting
      · rw [if_pos h2] at h
        simp only [Except.error.injEq] at h
        exact h.symm
      · rw [if_neg h2] at h
        cases hfold : foldVisit (fun o m => visitNode adj fuel (n :: visiting) o m)
            order (adj n) with
        | error e' =>
          rw [hfold] at h
          simp only [Except.error.injEq] at h
          rw [← h]
          exact foldVisit_err (fun o m e'' hh => ih _ o m e'' hh) (adj n) order e' hfold
        | ok o1 => rw [hfold] at h; cases h

theorem GoodOrder.snoc {o1 : List String} {n : String} (h : GoodOrder adj o1)
    (hn : n ∉ o1) (hadj : ∀ b ∈ adj n, b ∈ o1) : GoodOrder adj (o1 ++ [n]) := by
  constructor
  · simp only [List.nodup_append, List.nodup_cons, List.not_mem_nil, not_false_iff,
      List.nodup_nil, and_true, List.disjoint_singleton, true_and]
    exact ⟨h.1, hn⟩
  · intro a ha b hb
    rcases List.mem_append.mp ha with ha1 | ha1
    · obtain ⟨hbm, hlt⟩ := h.2 a ha1 b hb
      refine ⟨List.mem_append_left _ hbm, ?_⟩
      rw [List.indexOf_append_of_mem hbm, List.indexOf_append_of_mem ha1]
      exact hlt
    · have hae : a = n := List.mem_singleton.mp ha1
      subst hae
      have hbm : b ∈ o1 := hadj b hb
      refine ⟨List.mem_append_left _ hbm, ?_⟩
      rw [List.indexOf_append_of_mem hbm, List.indexOf_append_of_not_mem hn,
        List.indexOf_cons_self]
      have := List.indexOf_lt_length.mpr hbm
      omega

theorem foldVisit_good {f : List String → String → Except GraphError (List String)}
    (hf : ∀ o m o', f o m = .ok o' → GoodOrder adj o → GoodOrder adj o') :
    ∀ (ms o o' : List String), foldVisit f o ms = .ok o' →
      GoodOrder adj o → GoodOrder adj o' := by
  intro ms
  induction ms with
  | nil =>
    intro o o' h hg
    simp only [foldVisit, Except.ok.injEq] at h
    rw [← h]; exact hg
  | cons m ms ih =>
    intro o o' h hg
    cases hm : f o m with
    | error e => simp only [foldVisit, hm] at h; exact Except.noConfusion h
    | ok o1 =>
      simp only [foldVisit, hm] at h
      exact ih o1 o' h (hf o m o1 hm hg)

theorem visitNode_good :
    ∀ (fuel : Nat) (visiting order : List String) (n : String) (order' : List String),
      visitNode adj fuel visiting order n = .ok order' →
      GoodOrder adj order → GoodOrder adj order' := by
  intro fuel
  induction fuel with
  | zero =>
    intro visiting order n order' h
    simp only [visitNode] at h; exact Except.noConfusion h
  | succ fuel ih =>
    intro visiting order n order' h hg
    simp only [visitNode] at h
    by_cases h1 : n ∈ order
    · rw [if_pos h1] at h
      simp only [Except.ok.injEq] at h
      rw [← h]; exact hg
    · rw [if_neg h1] at h
      by_cases h2 : n ∈ visiting
      · rw [if_pos h2] at h; cases h
      · rw [if_neg h2] at h
        cases hfold : foldVisit (fun o m => visitNode adj fuel (n :: visiting) o m)
            order (adj n) with
        | error e => rw [hfold] at h; cases h
        | ok o1 =>
          rw [hfold] at h
          simp only [Except.ok.injEq] at h
          subst h
          have hg1 : GoodOrder adj o1 :=
            foldVisit_good (fun o m o' hh => ih _ o m o' hh) (adj n) order o1 hfold hg
          have hmono : ∀ o m o', visitNode adj fuel (n :: visiting) o m = .ok o' →
              ∃ ext, o' = o ++ ext := fun o m o' hh => (visitNode_spec fuel _ o m o' hh).1
          have hmem : ∀ o m o', visitNode adj fuel (n :: visiting) o m = .ok o' → m ∈ o' :=
            fun o m o' hh => (visitNode_spec fuel _ o m o' hh).2.1
          have hadj : ∀ b ∈ adj n, b ∈ o1 :=
            foldVisit_mem hmono hmem (adj n) order o1 hfold
          have hfr : ∀ o m o', visitNode adj fuel (n :: visiting) o m = .ok o' →
              ∀ y ∈ (n :: visiting), y ∉ o → y ∉ o' :=
            fun o m o' hh y hy hyo => (visitNode_spec fuel _ o m o' hh).2.2 y hy hyo
          have hn1 : n ∉ o1 :=
            foldVisit_fresh (n :: visiting) hfr (adj n) order o1 hfold n
              (List.mem_cons_self n visiting) h1
          exact hg1.snoc hn1 hadj

theorem foldVisit_sub {f : List String → String → Except GraphError (List String)}
    {N : List String}
    (hf : ∀ o m o', f o m = .ok o' → o ⊆ N → m ∈ N → o' ⊆ N) :
    ∀ (ms o o' : List String), foldVisit f o ms = .ok o' →
      o ⊆ N → (∀ m ∈ ms, m ∈ N) → o' ⊆ N := by
  intro ms
  induction ms with
  | nil =>
    intro o o' h ho _
    simp only [foldVisit, Except.ok.injEq] at h
    rw [← h]; exact ho
  | cons m ms ih =>
    intro o o' h ho hms
    cases hm : f o m with
    | error e => simp only [foldVisit, hm] at h; exact Except.noConfusion h
    | ok o1 =>
      simp only [foldVisit, hm] at h
      exact ih o1 o' h (hf o m o1 hm ho (hms m (List.mem_cons_self m ms)))
        (fun x hx => hms x (List.mem_cons_of_mem m hx))

theorem visitNode_sub {N : List String} (hadjN : ∀ x, adj x ⊆ N) :
    ∀ (fuel : Nat) (visiting order : List String) (n : String) (order' : List String),
      visitNode adj fuel visiting order n = .ok order' →
      order ⊆ N → n ∈ N → order' ⊆ N := by
  intro fuel
  induction fuel with
  | zero =>
    intro visiting order n order' h
    simp only [visitNode] at h; exact Except.noConfusion h
  | succ fuel ih =>
    intro visiting order n order' h ho hn
    simp only [visitNode] at h
    by_cases h1 : n ∈ order
    · rw [if_pos h1] at h
      simp only [Except.ok.injEq] at h
      rw [← h]; exact ho
    · rw [if_neg h1] at h
      by_cases h2 : n ∈ visiting
      · rw [if_pos h2] at h; cases h
      · rw [if_neg h2] at h
        cases hfold : foldVisit (fun o m => visitNode adj fuel (n :: visiting) o m)
            order (adj n) with
        | error e => rw [hfold] at h; cases h
        | ok o1 =>
          rw [hfold] at h
          simp only [Except.ok.injEq] at h
          subst h
          have ho1 : o1 ⊆ N :=
            foldVisit_sub (fun o m o' hh hoN hmN => ih _ o m o' hh hoN hmN)
              (adj n) order o1 hfold ho (fun m hm => hadjN n hm)
          intro x hx
          rcases List.mem_append.mp hx with hx1 | hx1
          · exact ho1 hx1
          · rw [List.mem_singleton.mp hx1]; exact hn

theorem visitNode_ok {N : List String} (hadjN : ∀ x, adj x ⊆ N) (hA : Acyclic adj) :
    ∀ (fuel : Nat) (visiting : List String) (n : String),
      n ∈ N → visiting.Nodup → visiting ⊆ N →
      (∀ x ∈ visiting, Reaches adj x n) →
      N.length + 1 ≤ fuel + visiting.length →
      ∀ order, ∃ order', visitNode adj fuel visiting order n = .ok order' := by
  intro fuel
  induction fuel with
  | zero =>
    intro visiting n _ hvN hvS _ hfuel _
    exfalso
    have hle : visiting.length ≤ N.length :=
      (List.subperm_of_subset hvN hvS).length_le
    omega
  | succ fuel ih =>
    intro visiting n hn hvN hvS hreach hfuel order
    by_cases h1 : n ∈ order
    · exact ⟨order, by simp only [visitNode, if_pos h1]⟩
    · by_cases h2 : n ∈ visiting
      · exact absurd (hreach n h2) (hA n)
      · have hchild : ∀ m ∈ adj n, ∀ o, ∃ o',
            visitNode adj fuel (n :: visiting) o m = .ok o' := by
          intro m hm o
          refine ih (n :: visiting) m (hadjN n hm) ?_ ?_ ?_ ?_ o
          · exact List.nodup_cons.mpr ⟨h2, hvN⟩
          · intro x hx
            rcases List.mem_cons.mp hx with rfl | hx
            · exact hn
            · exact hvS hx
          · intro x hx
            rcases List.mem_cons.mp hx with rfl | hx
            · exact Relation.TransGen.single hm
            · exact (hreach x hx).tail hm
          · simp only [List.length_cons]
            omega
        obtain ⟨o1, hfold⟩ := foldVisit_ok (adj n) hchild order
        refine ⟨o1 ++ [n], ?_⟩
        simp only [visitNode, if_neg h1, if_neg h2, hfold]

end GraphLemmas

section DepGraphLemmas

theorem DepGraph.mem_adjOf {g : DepGraph} {a b : String} (h : (a, b) ∈ g.edges) :
    b ∈ g.adjOf a := by
  simp only [DepGraph.adjOf, List.mem_map, List.mem_filter, decide_eq_true_eq]
  exact ⟨(a, b), ⟨h, rfl⟩, rfl⟩

theorem DepGraph.adjOf_mem_edges {g : DepGraph} {a b : String} (h : b ∈ g.adjOf a) :
    (a, b) ∈ g.edges := by
  simp only [DepGraph.adjOf, List.mem_map, List.mem_filter, decide_eq_true_eq] at h
  obtain ⟨e, ⟨he, h1⟩, h2⟩ := h
  cases e
  cases h1
  cases h2
  exact he

theorem DepGraph.adjOf_sub {g : DepGraph}
    (hcl : ∀ e ∈ g.edges, e.1 ∈ g.nodes ∧ e.2 ∈ g.nodes) :
    ∀ x, g.adjOf x ⊆ g.nodes := by
  intro x b hb
  exact (hcl _ (DepGraph.adjOf_mem_edges hb)).2

theorem GoodOrder.reaches_lt {adj : Adj} {order : List String}
    (hG : GoodOrder adj order) {a b : String} (ha : a ∈ order) (h : Reaches adj a b) :
    b ∈ order ∧ order.indexOf b < order.indexOf a := by
  induction h with
  | single hstep => exact hG.2 a ha _ hstep
  | tail _ hstep ih =>
    obtain ⟨hb, hlt⟩ := ih
    obtain ⟨hc, hlt2⟩ := hG.2 _ hb _ hstep
    exact ⟨hc, hlt2.trans hlt⟩

theorem GoodOrder.no_self_reach {adj : Adj} {order : List String}
    (hG : GoodOrder adj order) {a : String} (ha : a ∈ order) : ¬ Reaches adj a a := by
  intro h
  have := (hG.reaches_lt ha h).2
  omega

theorem GoodOrder.refl_reaches_mem {adj : Adj} {order : List String}
    (hG : GoodOrder adj order) {a b : String} (ha : a ∈ order)
    (h : Relation.ReflTransGen (Step adj) a b) : b ∈ order := by
  induction h with
  | refl => exact ha
  | tail _ hstep ih => exact (hG.2 _ ih _ hstep).1

/-- A decreasing rank function witnesses acyclicity: if along every
recorded edge the dependency gets a strictly smaller rank than the
dependant, then no node can reach itself. -/
theorem acyclic_of_rank (g : DepGraph) (rank : String → Nat)
    (h : ∀ e ∈ g.edges, rank e.2 < rank e.1) : Acyclic g.adjOf := by
  have hstep : ∀ a b, Step g.adjOf a b → rank b < rank a := by
    intro a b hb
    exact h (a, b) (DepGraph.adjOf_mem_edges hb)
  intro n hn
  have : ∀ a b, Reaches g.adjOf a b → rank b < rank a := by
    intro a b hr
    induction hr with
    | single hs => exact hstep _ _ hs
    | tail _ hs ih => exact (hstep _ _ hs).trans ih
  have := this n n hn
  omega

theorem DepGraph.nodes_addNode {g : DepGraph} {n m : String} :
    m ∈ (g.addNode n).nodes ↔ m = n ∨ m ∈ g.nodes := by
  unfold DepGraph.addNode
  split
  · rename_i h
    constructor
    · intro hm; exact Or.inr hm
    · rintro (rfl | hm)
      · exact h
      · exact hm
  · simp only [List.mem_append, List.mem_singleton]
    tauto

theorem DepGraph.addNode_self_mem (g : DepGraph) (n : String) :
    n ∈ (g.addNode n).nodes :=
  DepGraph.nodes_addNode.mpr (Or.inl rfl)

theorem DepGraph.addNode_of_mem {g : DepGraph} {n : String} (h : n ∈ g.nodes) :
    g.addNode n = g := by
  unfold DepGraph.addNode
  rw [if_pos h]

theorem DepGraph.edges_addNode (g : DepGraph) (n : String) :
    (g.addNode n).edges = g.edges := by
  unfold DepGraph.addNode
  split <;> rfl

theorem DepGraph.nodes_nodup_addNode {g : DepGraph} (h : g.nodes.Nodup) (n : String) :
    (g.addNode n).nodes.Nodup := by
  unfold DepGraph.addNode
  split
  · exact h
  · rename_i hn
    simp only [List.nodup_append, List.nodup_cons, List.not_mem_nil, not_false_iff,
      List.nodup_nil, and_true, List.disjoint_singleton, true_and]
    exact ⟨h, hn⟩

theorem DepGraph.nodes_addEdge (g : DepGraph) (d dep : String) :
    (g.addEdge d dep).nodes = g.nodes := by
  unfold DepGraph.addEdge
  split <;> rfl

theorem DepGraph.addEdge_mem_edge (g : DepGraph) (d dep : String) :
    (d, dep) ∈ (g.addEdge d dep).edges := by
  unfold DepGraph.addEdge
  split
  · rename_i h; exact h
  · exact List.mem_append_right _ (List.mem_singleton.mpr rfl)

theorem DepGraph.addEdge_of_mem {g : DepGraph} {d dep : String}
    (h : (d, dep) ∈ g.edges) : g.addEdge d dep = g := by
  unfold DepGraph.addEdge
  rw [if_pos h]

theorem DepGraph.addDependency_mem_edge (g : DepGraph) (d dep : String) :
    (d, dep) ∈ (g.addDependency d dep).edges :=
  DepGraph.addEdge_mem_edge _ d dep

theorem DepGraph.addDependency_mem_dependant (g : DepGraph) (d dep : String) :
    d ∈ (g.addDependency d dep).nodes := by
  unfold DepGraph.addDependency
  rw [DepGraph.nodes_addEdge]
  exact DepGraph.nodes_addNode.mpr (Or.inr (DepGraph.addNode_self_mem g d))

theorem DepGraph.addDependency_mem_dependency (g : DepGraph) (d dep : String) :
    dep ∈ (g.addDependency d dep).nodes := by
  unfold DepGraph.addDependency
  rw [DepGraph.nodes_addEdge]
  exact DepGraph.addNode_self_mem (g.addNode d) dep

theorem DepGraph.nodes_addDependency {g : DepGraph} {d dep m : String} :
    m ∈ (g.addDependency d dep).nodes ↔ m = dep ∨ m = d ∨ m ∈ g.nodes := by
  unfold DepGraph.addDependency
  rw [DepGraph.nodes_addEdge, DepGraph.nodes_addNode, DepGraph.nodes_addNode]

theorem DepGraph.addDependency_idem (g : DepGraph) (d dep : String) :
    (g.addDependency d dep).addDependency d dep = g.addDependency d dep := by
  generalize hg1 : g.addDependency d dep = g1
  have hmem : (d, dep) ∈ g1.edges := hg1 ▸ g.addDependency_mem_edge d dep
  have hd : d ∈ g1.nodes := hg1 ▸ g.addDependency_mem_dependant d dep
  have hdep : dep ∈ g1.nodes := hg1 ▸ g.addDependency_mem_dependency d dep
  unfold DepGraph.addDependency
  rw [DepGraph.addNode_of_mem hd, DepGraph.addNode_of_mem hdep,
    DepGraph.addEdge_of_mem hmem]

theorem DepGraph.dependenciesOf_ne_unknown {g : DepGraph} {n : String}
    (h : n ∈ g.nodes) : g.dependenciesOf n ≠ .error .unknownNodeError := by
  unfold DepGraph.dependenciesOf
  rw [if_pos h]
  cases hv : visitNode g.adjOf (g.nodes.length + 1) [] [] n with
  | error e =>
    have := visitNode_err _ _ _ _ _ hv
    subst this
    intro hc
    cases hc
  | ok order =>
    intro hc
    cases hc

end DepGraphLemmas

/-! ### PackageDependencyContext
Translated from `src/Plugins/utilities/PackageDependencyContext.ts`.  The
payload type `F` stands for the opaque Gulp `vinyl` file object; the
`_packageMap` dictionary becomes a function to `Option F`.  The
`getPackageName()` call of `writeToStream` reads the command line (an
excluded external collaborator, spec section 6), so the required package
name is taken as a parameter; the target stream becomes the returned
list of pushed payloads. -/

/-- A parsed `package.json` manifest, reduced to the single field the
translated code reads. -/
structure PackageDescriptor where
  name : String
deriving DecidableEq, Repr

/-- The state of a `PackageDependencyContext`: the package graph and the
name-to-payload dictionary. -/
structure PackageDependencyContext (F : Type) where
  packageGraph : DepGraph
  packageMap : String → Option F

/-- A context holding no packages. -/
def PackageDependencyContext.empty (F : Type) : PackageDependencyContext F :=
  ⟨DepGraph.empty, fun _ => none⟩

/-- Translation of `addPackage`: registers the package name as a graph
node and stores the payload under the name. -/
def PackageDependencyContext.addPackage {F : Type} (ctx : PackageDependencyContext F)
    (packageDescriptor : PackageDescriptor) (file : F) : PackageDependencyContext F :=
  { packageGraph := ctx.packageGraph.addNode packageDescriptor.name
    packageMap := fun k =>
      if k = packageDescriptor.name then some file else ctx.packageMap k }

/-- Translation of `addPackageDependency`: registers the dependency name
as a node, then records the edge from the dependant to the dependency. -/
def PackageDependencyContext.addPackageDependency {F : Type}
    (ctx : PackageDependencyContext F) (packageDescriptor : PackageDescriptor)
    (packageDependencyName : String) : PackageDependencyContext F :=
  { ctx with
    packageGraph :=
      (ctx.packageGraph.addNode packageDependencyName).addDependency
        packageDescriptor.name packageDependencyName }

/-- Applies the optional caller-supplied transform of `writeToStream`. -/
def applyTransform {F : Type} (transformFunc : Option (F → F)) (file : F) : F :=
  match transformFunc with
  | some t => t file
  | none => file

/-- Translation of the `collectFunc` closure of `writeToStream`: look the
name up in the package map; if a payload is there, optionally transform it
and produce it; otherwise produce nothing. -/
def PackageDependencyContext.collectOpt {F : Type} (ctx : PackageDependencyContext F)
    (transformFunc : Option (F → F)) (packageName : String) : Option F :=
  match ctx.packageMap packageName with
  | some packageFile => some (applyTransform transformFunc packageFile)
  | none => none

/-- The name sequence walked by `writeToStream` (lines 53-62): with a
required package name, its `dependenciesOf` list followed by the name
itself; otherwise the graph's `overallOrder`. -/
def PackageDependencyContext.emissionSequence {F : Type}
    (ctx : PackageDependencyContext F) (requiredPackageName : Option String) :
    Except GraphError (List String) :=
  match requiredPackageName with
  | some name =>
    match ctx.packageGraph.dependenciesOf name with
    | .error e => .error e
    | .ok deps => .ok (deps ++ [name])
  | none => ctx.packageGraph.overallOrder

/-- Translation of `writeToStream`: walk the emission sequence and push
the payload of every name that has one, transformed when a transform is
supplied; names without a payload are skipped. -/
def PackageDependencyContext.writeToStream {F : Type} (ctx : PackageDependencyContext F)
    (requiredPackageName : Option String) (transformFunc : Option (F → F)) :
    Except GraphError (List F) :=
  match ctx.emissionSequence requiredPackageName with
  | .error e => .error e
  | .ok names => .ok (names.filterMap (ctx.collectOpt transformFunc))

/-! ### NpmWorkspacePluginOptions
Translated from `src/NpmWorkspacePluginOptions.ts`.  An options object is
a JavaScript dictionary with the seven optional keys of the
`NpmWorkspacePluginOptions` interface, modelled as a partial map from the
key enumeration to values.  `_.extend(dst, src...)` copies, in argument
order, every present key of each source into `dst` — mutating `dst` — and
returns `dst`; the module-level mutable `DEFAULT_WORKSPACE_PLUGIN_OPTIONS`
object therefore becomes an explicit state parameter threading through
`getWorkspacePluginOptions`, which returns both the merged result and the
new state of the defaults object (they are the same object).  The cached
command-line option reading (`yargs`, filesystem probing) is an excluded
external collaborator (spec section 1); its result enters as a
parameter. -/

/-- The version-bump enumeration of the source. -/
inductive VersionBump where
  | major
  | premajor
  | minor
  | preminor
  | patch
  | prepatch
  | prerelease
deriving DecidableEq, Repr

/-- The keys of the `NpmWorkspacePluginOptions` interface. -/
inductive OptionKey where
  | package
  | onlyNamedPackage
  | enableLogging
  | verboseLogging
  | versionBump
  | cwd
  | disableExternalWorkspaces
deriving DecidableEq, Repr

/-- The values an option can hold: strings, booleans, or a version-bump
constant. -/
inductive OptValue where
  | str (s : String)
  | bool (b : Bool)
  | vb (v : VersionBump)
deriving DecidableEq, Repr

/-- An options object: a partial assignment of values to keys. -/
def WOptions : Type := OptionKey → Option OptValue

/-- The empty options object, `{ }`. -/
def emptyOptions : WOptions := fun _ => none

/-- Translation of underscore's `_.extend(base, over)` for one source: for
every key, a value present on `over` overwrites the one on `base`. -/
def extendOptions (base over : WOptions) : WOptions := fun k =>
  match over k with
  | some v => some v
  | none => base k

/-- The initial contents of the module-level
`DEFAULT_WORKSPACE_PLUGIN_OPTIONS` object; the working directory comes
from `process.cwd()` and is a parameter. -/
def DEFAULT_WORKSPACE_PLUGIN_OPTIONS (cwd : String) : WOptions := fun k =>
  match k with
  | .enableLogging => some (.bool true)
  | .verboseLogging => some (.bool false)
  | .versionBump => some (.vb .patch)
  | .cwd => some (.str cwd)
  | .disableExternalWorkspaces => some (.bool false)
  | _ => none

/-- Translation of `getWorkspacePluginOptions`: returns
`_.extend(DEFAULT_WORKSPACE_PLUGIN_OPTIONS, localOptions or an empty
object, command-line options)`.  The first component is the returned
merged object; the second is the state of the module-level defaults
object after the call — `_.extend` wrote the merge into it, so both
components are the same object. -/
def getWorkspacePluginOptions (defaults : WOptions) (cmdLineOptions : WOptions)
    (localOptions : Option WOptions) : WOptions × WOptions :=
  let r := extendOptions (extendOptions defaults (localOptions.getD emptyOptions))
    cmdLineOptions
  (r, r)

/-! ### UninstallPackages
Translated from `src/Plugins/UninstallPackages.ts`.  The `rimraf.sync`
removal of `node_modules` is an excluded process/filesystem collaborator;
its outcome enters as the `primary` parameter.  A `SyncAction` may throw,
modelled as `Except String Unit` with the thrown message on the left; the
ANSI colouring and quoting applied to the package name inside the error
message is display formatting and is omitted.  The outcome records which
post-actions were invoked, in invocation order, and the structured
`PluginError` when the body threw. -/

/-- A synchronous action over a package: it can throw a message. -/
def SyncAction : Type := PackageDescriptor → String → Except String Unit

/-- A combination of an optional condition and an action, as configured in
`postUninstallActions`. -/
structure ConditionableAction where
  condition : Option (PackageDescriptor → String → Bool)
  action : SyncAction

/-- The condition evaluation of the source: the `condition` applied to the
package descriptor and path when present, `true` otherwise. -/
def runConditionOf (a : ConditionableAction) (packageDescriptor : PackageDescriptor)
    (packagePath : String) : Bool :=
  match a.condition with
  | some c => c packageDescriptor packagePath
  | none => true

/-- The structured error built by the `catch` clause: a fixed title, a
message embedding the offending package name and the underlying cause, and
the policy's continue-on-error flag (the `continue` property of the
`PluginErrorOptions`). -/
structure PluginError where
  title : String
  message : String
  continueFlag : Bool
deriving DecidableEq, Repr

/-- The error value thrown by `npmUninstallPackage` when its body throws
with message `cause`. -/
def mkUninstallError (packageName cause : String) (continueOnError : Bool) : PluginError :=
  { title := "Error uninstalling a workspace package"
    message := "Error uninstalling workspace package " ++ packageName ++ ": \n " ++ cause
    continueFlag := continueOnError }

/-- Translation of the `forEach` loop over `postUninstallActions`: each
action whose condition is satisfied is invoked in list order; a thrown
action aborts the loop, carrying its message out.  Returns the invoked
actions in order and the first thrown message, if any. -/
def runPostActions (packageDescriptor : PackageDescriptor) (packagePath : String) :
    List ConditionableAction → List ConditionableAction × Option String
  | [] => ([], none)
  | a :: rest =>
    if runConditionOf a packageDescriptor packagePath then
      match a.action packageDescriptor packagePath with
      | .ok _ =>
        let r := runPostActions packageDescriptor packagePath rest
        (a :: r.1, r.2)
      | .error msg => ([a], some msg)
    else runPostActions packageDescriptor packagePath rest

/-- The observable outcome of one `npmUninstallPackage` invocation. -/
structure UninstallOutcome where
  invoked : List ConditionableAction
  err : Option PluginError

/-- Translation of `npmUninstallPackage`: run the primary removal; when it
succeeded and post-uninstall actions are configured, run each one whose
condition passes, in list order; any throw inside the `try` body is turned
into a `PluginError` carrying the package name and the continue-on-error
policy. -/
def npmUninstallPackage (continueOnError : Bool) (primary : Except String Unit)
    (postUninstallActions : Option (List ConditionableAction))
    (packageDescriptor : PackageDescriptor) (packagePath : String) : UninstallOutcome :=
  match primary with
  | .error cause =>
    ⟨[], some (mkUninstallError packageDescriptor.name cause continueOnError)⟩
  | .ok _ =>
    match postUninstallActions with
    | none => ⟨[], none⟩
    | some actions =>
      let r := runPostActions packageDescriptor packagePath actions
      ⟨r.1, r.2.map (fun cause =>
        mkUninstallError packageDescriptor.name cause continueOnError)⟩

/-! ### The pipeline driver
The driver that feeds emitted packages one at a time to a plugin function
(`packageDescriptorPlugin` in the repository) is not part of the given
sources; it is modelled from the spec (sections 4.4, 5 and 7): packages
are processed strictly in emission order; a failure whose policy says
continue is recorded and processing moves on; a failure whose policy says
stop aborts immediately, and no later package is started. -/

/-- The aggregate result of a pipeline run: which packages were handed to
the action, in order; the recorded per-package failures; and whether the
run was aborted by a fatal failure. -/
structure PipelineResult where
  processed : List String
  failures : List PluginError
  aborted : Bool
deriving DecidableEq, Repr

/-- Modelled from the spec: the per-package pipeline driver.  `act`
returns `none` on success and the structured error on failure; the error's
`continueFlag` is the effective continue-on-error policy. -/
def runPipeline (act : String → Option PluginError) : List String → PipelineResult
  | [] => ⟨[], [], false⟩
  | p :: ps =>
    match act p with
    | none =>
      let r := runPipeline act ps
      ⟨p :: r.processed, r.failures, r.aborted⟩
    | some e =>
      if e.continueFlag then
        let r := runPipeline act ps
        ⟨p :: r.processed, e :: r.failures, r.aborted⟩
      else ⟨[p], [e], true⟩

/-! ### Claim theorems -/

/-- C1: for every well-formed dependency graph without cycles,
`overallOrder()` succeeds; its output contains every registered node
exactly once and nothing but registered nodes, and for every recorded
edge `(a, b)` — `a` depends on `b` — the dependency `b` appears strictly
before the dependant `a` in the output sequence. -/
theorem C1_overallOrder_topological (g : DepGraph)
    (hcl : ∀ e ∈ g.edges, e.1 ∈ g.nodes ∧ e.2 ∈ g.nodes)
    (hac : Acyclic g.adjOf) :
    ∃ order, g.overallOrder = .ok order ∧
      (∀ n ∈ g.nodes, order.count n = 1) ∧
      (∀ n ∈ order, n ∈ g.nodes) ∧
      (∀ e ∈ g.edges, e.2 ∈ order ∧ e.1 ∈ order ∧
        order.indexOf e.2 < order.indexOf e.1) := by
  have hadjN : ∀ x, g.adjOf x ⊆ g.nodes := DepGraph.adjOf_sub hcl
  have hok : ∀ n ∈ g.nodes, ∀ o, ∃ o',
      visitNode g.adjOf (g.nodes.length + 1) [] o n = .ok o' := by
    intro n hn o
    refine visitNode_ok hadjN hac _ [] n hn List.nodup_nil ?_ ?_ ?_ o
    · intro x hx; cases hx
    · intro x hx; cases hx
    · simp
  obtain ⟨order, hord⟩ := foldVisit_ok g.nodes hok []
  have hord' : g.overallOrder = .ok order := hord
  have hgood : GoodOrder g.adjOf order :=
    foldVisit_good (fun o m o' hh => visitNode_good _ _ o m o' hh) g.nodes [] order hord
      ⟨List.nodup_nil, fun a ha => absurd ha (List.not_mem_nil a)⟩
  have hmem : ∀ n ∈ g.nodes, n ∈ order :=
    foldVisit_mem (fun o m o' hh => (visitNode_spec _ _ o m o' hh).1)
      (fun o m o' hh => (visitNode_spec _ _ o m o' hh).2.1) g.nodes [] order hord
  have hsub : order ⊆ g.nodes :=
    foldVisit_sub (fun o m o' hh h1 h2 => visitNode_sub hadjN _ _ o m o' hh h1 h2)
      g.nodes [] order hord (fun x hx => absurd hx (List.not_mem_nil x)) (fun m hm => hm)
  refine ⟨order, hord', ?_, ?_, ?_⟩
  · intro n hn
    exact List.count_eq_one_of_mem hgood.1 (hmem n hn)
  · intro n hn
    exact hsub hn
  · intro e he
    obtain ⟨a, b⟩ := e
    have ha : a ∈ order := hmem a (hcl _ he).1
    have hb : b ∈ g.adjOf a := DepGraph.mem_adjOf he
    obtain ⟨hbo, hlt⟩ := hgood.2 a ha b hb
    exact ⟨hbo, ha, hlt⟩

/-- The three-package chain of the spec's worked example: `A` depends on
`B`, `B` depends on `C`. -/
def gChain : DepGraph := ⟨["A", "B", "C"], [("A", "B"), ("B", "C")]⟩

/-- A rank function witnessing that the chain has no cycle. -/
def rankChain : String → Nat := fun s => if s = "A" then 2 else if s = "B" then 1 else 0

/-- Witness for C1 at the concrete chain graph. -/
theorem C1_overallOrder_topological_witness :
    ∃ order, gChain.overallOrder = .ok order ∧
      (∀ n ∈ gChain.nodes, order.count n = 1) ∧
      (∀ n ∈ order, n ∈ gChain.nodes) ∧
      (∀ e ∈ gChain.edges, e.2 ∈ order ∧ e.1 ∈ order ∧
        order.indexOf e.2 < order.indexOf e.1) :=
  C1_overallOrder_topological gChain (by decide)
    (acyclic_of_rank gChain rankChain (by decide))

/-- C2: for every well-formed cycle-free graph and registered target `T`,
`dependenciesOf T` succeeds, the target is excluded from that dependency
list, and the Closure-scope emission sequence is exactly `dependenciesOf T`
followed by `T` itself — the focal package occurs once and is the last
element; `writeToStream` then pushes the payloads of that sequence. -/
theorem C2_closure_emission {F : Type} (ctx : PackageDependencyContext F)
    (transformFunc : Option (F → F)) (T : String)
    (hcl : ∀ e ∈ ctx.packageGraph.edges,
      e.1 ∈ ctx.packageGraph.nodes ∧ e.2 ∈ ctx.packageGraph.nodes)
    (hac : Acyclic ctx.packageGraph.adjOf)
    (hT : T ∈ ctx.packageGraph.nodes) :
    ∃ deps, ctx.packageGraph.dependenciesOf T = .ok deps ∧
      T ∉ deps ∧
      ctx.emissionSequence (some T) = .ok (deps ++ [T]) ∧
      (deps ++ [T]).getLast? = some T ∧
      (deps ++ [T]).count T = 1 ∧
      ctx.writeToStream (some T) transformFunc =
        .ok ((deps ++ [T]).filterMap (ctx.collectOpt transformFunc)) := by
  have hadjN := DepGraph.adjOf_sub hcl
  obtain ⟨order, hv⟩ :=
    visitNode_ok hadjN hac (ctx.packageGraph.nodes.length + 1) [] T hT List.nodup_nil
      (fun x hx => absurd hx (List.not_mem_nil x))
      (fun x hx => absurd hx (List.not_mem_nil x)) (by simp) []
  have hgood : GoodOrder ctx.packageGraph.adjOf order :=
    visitNode_good _ _ _ _ _ hv
      ⟨List.nodup_nil, fun a ha => absurd ha (List.not_mem_nil a)⟩
  have hTmem : T ∈ order := (visitNode_spec _ _ _ _ _ hv).2.1
  have hdeps : ctx.packageGraph.dependenciesOf T = .ok (order.erase T) := by
    unfold DepGraph.dependenciesOf
    rw [if_pos hT, hv]
  have hTnot : T ∉ order.erase T := by
    have h1 : (order.erase T).count T = order.count T - 1 := List.count_erase_self T order
    have h2 : order.count T = 1 := List.count_eq_one_of_mem hgood.1 hTmem
    rw [← List.count_pos_iff]
    omega
  have hseq : ctx.emissionSequence (some T) = .ok (order.erase T ++ [T]) := by
    simp only [PackageDependencyContext.emissionSequence, hdeps]
  refine ⟨order.erase T, hdeps, hTnot, hseq, List.getLast?_concat _, ?_, ?_⟩
  · have h0 : (order.erase T).count T = 0 := List.count_eq_zero.mpr hTnot
    rw [List.count_append, h0]
    simp
  · unfold PackageDependencyContext.writeToStream
    rw [hseq]

/-- The chain graph packaged in a context, with numeric payloads standing
for the Gulp files. -/
def ctxChain : PackageDependencyContext Nat :=
  ⟨gChain, fun n => if n = "A" then some 1 else if n = "B" then some 2
    else if n = "C" then some 3 else none⟩

/-- Witness for C2 at the concrete chain context with target `A`. -/
theorem C2_closure_emission_witness :
    ∃ deps, ctxChain.packageGraph.dependenciesOf "A" = .ok deps ∧
      "A" ∉ deps ∧
      ctxChain.emissionSequence (some "A") = .ok (deps ++ ["A"]) ∧
      (deps ++ ["A"]).getLast? = some "A" ∧
      (deps ++ ["A"]).count "A" = 1 ∧
      ctxChain.writeToStream (some "A") none =
        .ok ((deps ++ ["A"]).filterMap (ctxChain.collectOpt none)) :=
  C2_closure_emission ctxChain none "A" (by decide)
    (acyclic_of_rank ctxChain.packageGraph rankChain (by decide)) (by decide)

/-- C3: a graph with a directed cycle (a self-edge included) makes the
traversal fail with `CycleError`: `overallOrder` fails whenever some
registered node lies on a cycle, and `dependenciesOf T` fails whenever the
cycle is reachable from the target `T`.  The traversal is a total
function, so it terminates on every input, and failure means no order at
all is emitted. -/
theorem C3_cycle_detection (g : DepGraph) (n : String)
    (hn : n ∈ g.nodes) (hcyc : Reaches g.adjOf n n) (T : String) (hT : T ∈ g.nodes)
    (hTn : Relation.ReflTransGen (Step g.adjOf) T n) :
    g.overallOrder = .error .cycleError ∧
    g.dependenciesOf T = .error .cycleError := by
  constructor
  · cases hres : g.overallOrder with
    | ok order =>
      exfalso
      have hres' : foldVisit
          (fun o m => visitNode g.adjOf (g.nodes.length + 1) [] o m) [] g.nodes =
          .ok order := hres
      have hgood : GoodOrder g.adjOf order :=
        foldVisit_good (fun o m o' hh => visitNode_good _ _ o m o' hh) g.nodes [] order
          hres' ⟨List.nodup_nil, fun a ha => absurd ha (List.not_mem_nil a)⟩
      have hmem : n ∈ order :=
        foldVisit_mem (fun o m o' hh => (visitNode_spec _ _ o m o' hh).1)
          (fun o m o' hh => (visitNode_spec _ _ o m o' hh).2.1) g.nodes [] order hres' n hn
      exact hgood.no_self_reach hmem hcyc
    | error e =>
      have hres' : foldVisit
          (fun o m => visitNode g.adjOf (g.nodes.length + 1) [] o m) [] g.nodes =
          .error e := hres
      have he : e = .cycleError :=
        foldVisit_err (fun o m e' hh => visitNode_err _ _ o m e' hh) g.nodes [] e hres'
      rw [he]
  · unfold DepGraph.dependenciesOf
    rw [if_pos hT]
    cases hv : visitNode g.adjOf (g.nodes.length + 1) [] [] T with
    | ok order =>
      exfalso
      have hgood : GoodOrder g.adjOf order :=
        visitNode_good _ _ _ _ _ hv
          ⟨List.nodup_nil, fun a ha => absurd ha (List.not_mem_nil a)⟩
      have hTm : T ∈ order := (visitNode_spec _ _ _ _ _ hv).2.1
      have hnm : n ∈ order := hgood.refl_reaches_mem hTm hTn
      exact hgood.no_self_reach hnm hcyc
    | error e =>
      have he : e = .cycleError := visitNode_err _ _ _ _ _ hv
      rw [he]

/-- A two-package cycle: `A` depends on `B` and `B` depends on `A`. -/
def gCycle : DepGraph := ⟨["A", "B"], [("A", "B"), ("B", "A")]⟩

/-- Witness for C3 at the concrete two-package cycle. -/
theorem C3_cycle_detection_witness :
    gCycle.overallOrder = .error .cycleError ∧
    gCycle.dependenciesOf "A" = .error .cycleError := by
  have hAB : Step gCycle.adjOf "A" "B" := by
    show ("B" : String) ∈ gCycle.adjOf "A"
    decide
  have hBA : Step gCycle.adjOf "B" "A" := by
    show ("A" : String) ∈ gCycle.adjOf "B"
    decide
  exact C3_cycle_detection gCycle "A" (by decide)
    (Relation.TransGen.head hAB (Relation.TransGen.single hBA)) "A" (by decide)
    Relation.ReflTransGen.refl

/-- C4: `addPackageDependency` is idempotent, registers both the dependant
and the dependency as graph nodes, and in particular a dependant that was
never separately registered via `addPackage` does not make a subsequent
`dependenciesOf` traversal fail with the unknown-node error. -/
theorem C4_addPackageDependency_registers_endpoints {F : Type}
    (ctx : PackageDependencyContext F) (pd : PackageDescriptor) (depName : String) :
    (ctx.addPackageDependency pd depName).addPackageDependency pd depName =
      ctx.addPackageDependency pd depName ∧
    pd.name ∈ (ctx.addPackageDependency pd depName).packageGraph.nodes ∧
    depName ∈ (ctx.addPackageDependency pd depName).packageGraph.nodes ∧
    (ctx.addPackageDependency pd depName).packageGraph.dependenciesOf pd.name ≠
      .error .unknownNodeError := by
  obtain ⟨g0, m0⟩ := ctx
  have hdant := (g0.addNode depName).addDependency_mem_dependant pd.name depName
  have hdep := (g0.addNode depName).addDependency_mem_dependency pd.name depName
  refine ⟨?_, hdant, hdep, DepGraph.dependenciesOf_ne_unknown hdant⟩
  show PackageDependencyContext.mk
      ((((g0.addNode depName).addDependency pd.name depName).addNode depName).addDependency
        pd.name depName) m0 =
    PackageDependencyContext.mk ((g0.addNode depName).addDependency pd.name depName) m0
  rw [DepGraph.addNode_of_mem hdep]
  rw [DepGraph.addDependency_idem (g0.addNode depName) pd.name depName]

/-- Witness for C4 at a concrete empty context: an edge from the never
separately registered package `A` to `B`. -/
theorem C4_addPackageDependency_registers_endpoints_witness :
    ((PackageDependencyContext.empty Nat).addPackageDependency ⟨"A"⟩
        "B").addPackageDependency ⟨"A"⟩ "B" =
      (PackageDependencyContext.empty Nat).addPackageDependency ⟨"A"⟩ "B" ∧
    (PackageDescriptor.mk "A").name ∈
      ((PackageDependencyContext.empty Nat).addPackageDependency ⟨"A"⟩
        "B").packageGraph.nodes ∧
    "B" ∈ ((PackageDependencyContext.empty Nat).addPackageDependency ⟨"A"⟩
        "B").packageGraph.nodes ∧
    ((PackageDependencyContext.empty Nat).addPackageDependency ⟨"A"⟩
        "B").packageGraph.dependenciesOf (PackageDescriptor.mk "A").name ≠
      .error .unknownNodeError :=
  C4_addPackageDependency_registers_endpoints
    (PackageDependencyContext.empty Nat) ⟨"A"⟩ "B"

/-- A pipeline run over packages whose action all succeed processes every
package, records no failure, and does not abort. -/
theorem runPipeline_all_ok (act : String → Option PluginError) :
    ∀ ps : List String, (∀ q ∈ ps, act q = none) → runPipeline act ps = ⟨ps, [], false⟩ := by
  intro ps
  induction ps with
  | nil => intro _; rfl
  | cons p t ih =>
    intro hall
    have hp : act p = none := hall p (List.mem_cons_self p t)
    have ht := ih (fun q hq => hall q (List.mem_cons_of_mem p hq))
    simp only [runPipeline, hp, ht]

/-- C5: the action-pipeline failure policy.  First, with a single failing
package `k` whose error says continue, every package is still processed,
exactly that one failure is recorded, and the run is not aborted.  Second,
with a failure whose error says stop, the packages before `k` and `k`
itself are processed, that one failure is recorded, the run aborts, and no
package after `k` is ever invoked.  Third, the structured error raised by
`npmUninstallPackage` carries its fixed human-readable title, a message
embedding the offending package name, and the policy's continue-on-error
flag. -/
theorem C5_pipeline_failure_policy :
    (∀ (packages : List String) (act : String → Option PluginError) (k : String)
        (e : PluginError),
      k ∈ packages → packages.count k = 1 → act k = some e → e.continueFlag = true →
      (∀ q ∈ packages, q ≠ k → act q = none) →
      runPipeline act packages = ⟨packages, [e], false⟩) ∧
    (∀ (l1 l2 : List String) (act : String → Option PluginError) (k : String)
        (e : PluginError),
      act k = some e → e.continueFlag = false → (∀ q ∈ l1, act q = none) →
      runPipeline act (l1 ++ k :: l2) = ⟨l1 ++ [k], [e], true⟩) ∧
    (∀ (continueOnError : Bool) (primary : Except String Unit)
        (postUninstallActions : Option (List ConditionableAction))
        (pd : PackageDescriptor) (packagePath : String) (e : PluginError),
      (npmUninstallPackage continueOnError primary postUninstallActions
          pd packagePath).err = some e →
      e.title = "Error uninstalling a workspace package" ∧
      e.continueFlag = continueOnError ∧
      ∃ pre post, e.message = pre ++ pd.name ++ post) := by
  refine ⟨?_, ?_, ?_⟩
  · intro packages
    induction packages with
    | nil => intro act k e hk; cases hk
    | cons p t ih =>
      intro act k e hk hcount hak hflag hall
      by_cases hpk : p = k
      · subst hpk
        have hcz : t.count p = 0 := by
          have := List.count_cons_self p t
          omega
        have hnot : p ∉ t := by
          rw [← List.count_pos_iff]
          omega
        have ht : runPipeline act t = ⟨t, [], false⟩ := by
          refine runPipeline_all_ok act t ?_
          intro q hq
          exact hall q (List.mem_cons_of_mem p hq) (fun hqe => hnot (hqe ▸ hq))
        simp [runPipeline, hak, hflag, ht]
      · have hkt : k ∈ t := by
          rcases List.mem_cons.mp hk with rfl | hkt
          · exact absurd rfl hpk
          · exact hkt
        have hcount' : t.count k = 1 := by
          have := List.count_cons_of_ne (show k ≠ p from fun h => hpk h.symm) t
          omega
        have hap : act p = none := hall p (List.mem_cons_self p t) hpk
        have ht := ih act k e hkt hcount' hak hflag
          (fun q hq hqk => hall q (List.mem_cons_of_mem p hq) hqk)
        simp only [runPipeline, hap, ht]
  · intro l1
    induction l1 with
    | nil =>
      intro l2 act k e hak hflag _
      simp only [List.nil_append, runPipeline, hak, hflag]
      rfl
    | cons p t ih =>
      intro l2 act k e hak hflag hall
      have hap : act p = none := hall p (List.mem_cons_self p t)
      have ht := ih l2 act k e hak hflag (fun q hq => hall q (List.mem_cons_of_mem p hq))
      simp only [List.cons_append, runPipeline, hap]
      rw [show runPipeline act (t.append (k :: l2)) =
        (⟨t ++ [k], [e], true⟩ : PipelineResult) from ht]
  · intro continueOnError primary postUninstallActions pd packagePath e herr
    have hshape : ∃ cause, e = mkUninstallError pd.name cause continueOnError := by
      cases primary with
      | error cause =>
        simp only [npmUninstallPackage, Option.some.injEq] at herr
        exact ⟨cause, herr.symm⟩
      | ok u =>
        cases postUninstallActions with
        | none =>
          simp only [npmUninstallPackage] at herr
          exact Option.noConfusion herr
        | some actions =>
          simp only [npmUninstallPackage, Option.map_eq_some'] at herr
          obtain ⟨cause, _, hc⟩ := herr
          exact ⟨cause, hc.symm⟩
    obtain ⟨cause, rfl⟩ := hshape
    refine ⟨rfl, rfl, "Error uninstalling workspace package ", ": \n " ++ cause, ?_⟩
    exact String.append_assoc ("Error uninstalling workspace package " ++ pd.name)
      ": \n " cause

/-- A continuable failure and a fatal failure on package `b`, used to
exercise the pipeline policy. -/
def errContinue : PluginError := ⟨"t", "m", true⟩

/-- The fatal variant of the exercise error. -/
def errFatal : PluginError := ⟨"t", "m", false⟩

/-- Witness for C5: the continue policy processes all three packages with
one recorded failure; the stop policy processes only up to the failing
package and aborts; the uninstall error embeds the package name and the
policy flag. -/
theorem C5_pipeline_failure_policy_witness :
    runPipeline (fun q => if q = "b" then some errContinue else none) ["a", "b", "c"] =
      ⟨["a", "b", "c"], [errContinue], false⟩ ∧
    runPipeline (fun q => if q = "b" then some errFatal else none) ["a", "b", "c"] =
      ⟨["a", "b"], [errFatal], true⟩ ∧
    ((npmUninstallPackage true (.error "disk failure") none ⟨"alpha"⟩ "/ws/alpha").err =
        some (mkUninstallError "alpha" "disk failure" true) ∧
      (mkUninstallError "alpha" "disk failure" true).title =
        "Error uninstalling a workspace package" ∧
      (mkUninstallError "alpha" "disk failure" true).continueFlag = true ∧
      ∃ pre post,
        (mkUninstallError "alpha" "disk failure" true).message = pre ++ "alpha" ++ post) := by
  refine ⟨?_, ?_, rfl, ?_⟩
  · exact C5_pipeline_failure_policy.1 ["a", "b", "c"]
      (fun q => if q = "b" then some errContinue else none) "b" errContinue
      (by decide) (by decide) (by decide) (by decide) (by decide)
  · exact C5_pipeline_failure_policy.2.1 ["a"] ["c"]
      (fun q => if q = "b" then some errFatal else none) "b" errFatal
      (by decide) (by decide) (by decide)
  · exact C5_pipeline_failure_policy.2.2 true (.error "disk failure") none ⟨"alpha"⟩
      "/ws/alpha" (mkUninstallError "alpha" "disk failure" true) rfl

/-- Removing from the name sequence an element the collector maps to
nothing does not change the collected output. -/
theorem filterMap_filter_ne {α β : Type} [DecidableEq α] (f : α → Option β) (n : α)
    (hf : f n = none) :
    ∀ l : List α, (l.filter (fun m => m ≠ n)).filterMap f = l.filterMap f := by
  intro l
  induction l with
  | nil => rfl
  | cons a l ih =>
    by_cases ha : a = n
    · subst ha
      simp only [List.filter_cons]
      rw [if_neg (by simp)]
      rw [List.filterMap_cons_none hf]
      exact ih
    · simp only [List.filter_cons]
      rw [if_pos (by simpa using ha)]
      cases hfa : f a with
      | none => rw [List.filterMap_cons_none hfa, List.filterMap_cons_none hfa]; exact ih
      | some b =>
        rw [List.filterMap_cons_some hfa, List.filterMap_cons_some hfa, ih]

/-- The number of emitted payloads equals the number of sequence names
whose payload is registered. -/
theorem collectOpt_length {F : Type} (ctx : PackageDependencyContext F)
    (transformFunc : Option (F → F)) :
    ∀ names : List String,
      (names.filterMap (ctx.collectOpt transformFunc)).length =
        (names.filter (fun n => (ctx.packageMap n).isSome)).length := by
  intro names
  induction names with
  | nil => rfl
  | cons a l ih =>
    cases hpm : ctx.packageMap a with
    | none =>
      have hc : ctx.collectOpt transformFunc a = none := by
        simp [PackageDependencyContext.collectOpt, hpm]
      rw [List.filterMap_cons_none hc]
      simp only [List.filter_cons, hpm, Option.isSome_none]
      simpa using ih
    | some fl =>
      have hc : ctx.collectOpt transformFunc a = some (applyTransform transformFunc fl) := by
        simp [PackageDependencyContext.collectOpt, hpm]
      rw [List.filterMap_cons_some hc]
      simp only [List.filter_cons, hpm, Option.isSome_some]
      simp [List.length_cons, ih]

/-- C6: once the name sequence is resolved, emission never fails: every
name with a registered payload is emitted (through the caller-supplied
transform when one is given), a name with no payload is skipped — it
contributes nothing, and deleting it from the sequence leaves the output
unchanged — and the output length is exactly the number of names with a
payload. -/
theorem C6_emission_skips_unregistered {F : Type} (ctx : PackageDependencyContext F)
    (requiredPackageName : Option String) (transformFunc : Option (F → F))
    (names : List String)
    (h : ctx.emissionSequence requiredPackageName = .ok names) :
    ctx.writeToStream requiredPackageName transformFunc =
      .ok (names.filterMap (ctx.collectOpt transformFunc)) ∧
    (∀ n, ctx.packageMap n = none →
      ctx.collectOpt transformFunc n = none ∧
      (names.filter (fun m => m ≠ n)).filterMap (ctx.collectOpt transformFunc) =
        names.filterMap (ctx.collectOpt transformFunc)) ∧
    (∀ n fl, ctx.packageMap n = some fl →
      ctx.collectOpt transformFunc n = some (applyTransform transformFunc fl)) ∧
    (names.filterMap (ctx.collectOpt transformFunc)).length =
      (names.filter (fun n => (ctx.packageMap n).isSome)).length := by
  refine ⟨?_, ?_, ?_, collectOpt_length ctx transformFunc names⟩
  · unfold PackageDependencyContext.writeToStream
    rw [h]
  · intro n hpm
    have hc : ctx.collectOpt transformFunc n = none := by
      simp [PackageDependencyContext.collectOpt, hpm]
    exact ⟨hc, filterMap_filter_ne _ n hc names⟩
  · intro n fl hpm
    simp [PackageDependencyContext.collectOpt, hpm]

/-- A context where node `B` is a graph node with no registered payload
(an external dependency): `A` depends on `B`, only `A` carries a
payload. -/
def ctxSkip : PackageDependencyContext Nat :=
  ⟨⟨["A", "B"], [("A", "B")]⟩, fun n => if n = "A" then some 1 else none⟩

/-- Witness for C6 at the concrete context with an unregistered node. -/
theorem C6_emission_skips_unregistered_witness :
    ctxSkip.writeToStream none none =
      .ok ((["B", "A"] : List String).filterMap (ctxSkip.collectOpt none)) ∧
    (∀ n, ctxSkip.packageMap n = none →
      ctxSkip.collectOpt none n = none ∧
      ((["B", "A"] : List String).filter (fun m => m ≠ n)).filterMap
          (ctxSkip.collectOpt none) =
        (["B", "A"] : List String).filterMap (ctxSkip.collectOpt none)) ∧
    (∀ n fl, ctxSkip.packageMap n = some fl →
      ctxSkip.collectOpt none n = some (applyTransform none fl)) ∧
    ((["B", "A"] : List String).filterMap (ctxSkip.collectOpt none)).length =
      ((["B", "A"] : List String).filter (fun n => (ctxSkip.packageMap n).isSome)).length :=
  C6_emission_skips_unregistered ctxSkip none none ["B", "A"] (by decide)

/-- A post-action run in which every eligible action succeeds invokes
exactly the actions whose condition passes, in list order, and carries no
thrown message out. -/
theorem runPostActions_all_ok (pd : PackageDescriptor) (packagePath : String) :
    ∀ actions : List ConditionableAction,
      (∀ a ∈ actions, a.action pd packagePath = .ok ()) →
      runPostActions pd packagePath actions =
        (actions.filter (fun a => runConditionOf a pd packagePath), none) := by
  intro actions
  induction actions with
  | nil => intro _; rfl
  | cons a rest ih =>
    intro hall
    have ha : a.action pd packagePath = .ok () := hall a (List.mem_cons_self a rest)
    have hrest := ih (fun x hx => hall x (List.mem_cons_of_mem a hx))
    by_cases hc : runConditionOf a pd packagePath
    · simp [runPostActions, hc, ha, hrest, List.filter_cons]
    · have hc' : runConditionOf a pd packagePath = false := by
        cases hcv : runConditionOf a pd packagePath
        · rfl
        · exact absurd hcv hc
      simp [runPostActions, hc', hrest, List.filter_cons]

/-- Every invoked post-action comes from the configured list and had a
passing condition. -/
theorem runPostActions_invoked (pd : PackageDescriptor) (packagePath : String) :
    ∀ actions : List ConditionableAction,
      ∀ a ∈ (runPostActions pd packagePath actions).1,
        a ∈ actions ∧ runConditionOf a pd packagePath = true := by
  intro actions
  induction actions with
  | nil => intro a ha; cases ha
  | cons hd rest ih =>
    intro a ha
    by_cases hc : runConditionOf hd pd packagePath
    · rw [show runPostActions pd packagePath (hd :: rest) =
          (if runConditionOf hd pd packagePath then
            match hd.action pd packagePath with
            | .ok _ =>
              let r := runPostActions pd packagePath rest
              (hd :: r.1, r.2)
            | .error msg => ([hd], some msg)
          else runPostActions pd packagePath rest) from rfl, if_pos hc] at ha
      cases hact : hd.action pd packagePath with
      | ok u =>
        rw [hact] at ha
        rcases List.mem_cons.mp ha with rfl | ha
        · exact ⟨List.mem_cons_self _ _, hc⟩
        · obtain ⟨hmem, hcond⟩ := ih a ha
          exact ⟨List.mem_cons_of_mem hd hmem, hcond⟩
      | error msg =>
        rw [hact] at ha
        have : a = hd := List.mem_singleton.mp ha
        subst this
        exact ⟨List.mem_cons_self _ _, hc⟩
    · have hc' : runConditionOf hd pd packagePath = false := by
        cases hcv : runConditionOf hd pd packagePath
        · rfl
        · exact absurd hcv hc
      rw [show runPostActions pd packagePath (hd :: rest) =
          (if runConditionOf hd pd packagePath then
            match hd.action pd packagePath with
            | .ok _ =>
              let r := runPostActions pd packagePath rest
              (hd :: r.1, r.2)
            | .error msg => ([hd], some msg)
          else runPostActions pd packagePath rest) from rfl, hc'] at ha
      simp only [Bool.false_eq_true, if_false] at ha
      obtain ⟨hmem, hcond⟩ := ih a ha
      exact ⟨List.mem_cons_of_mem hd hmem, hcond⟩

/-- C7: post-uninstall actions run only after the primary action
succeeded — a failing primary invokes none of them; every invoked action
comes from the configured list with its predicate (absent means true)
evaluating to true on the package descriptor and path — an action with a
false predicate is never invoked; and when the primary action and all
eligible actions succeed, the invoked actions are exactly the
predicate-passing ones, in list order, with no error raised. -/
theorem C7_post_actions_gated_by_predicate :
    (∀ (continueOnError : Bool) (cause : String)
        (postUninstallActions : Option (List ConditionableAction))
        (pd : PackageDescriptor) (packagePath : String),
      (npmUninstallPackage continueOnError (.error cause) postUninstallActions
          pd packagePath).invoked = []) ∧
    (∀ (continueOnError : Bool) (primary : Except String Unit)
        (actions : List ConditionableAction) (pd : PackageDescriptor)
        (packagePath : String) (a : ConditionableAction),
      a ∈ (npmUninstallPackage continueOnError primary (some actions)
          pd packagePath).invoked →
      a ∈ actions ∧ runConditionOf a pd packagePath = true) ∧
    (∀ (continueOnError : Bool) (actions : List ConditionableAction)
        (pd : PackageDescriptor) (packagePath : String),
      (∀ a ∈ actions, a.action pd packagePath = .ok ()) →
      (npmUninstallPackage continueOnError (.ok ()) (some actions)
          pd packagePath).invoked =
        actions.filter (fun a => runConditionOf a pd packagePath) ∧
      (npmUninstallPackage continueOnError (.ok ()) (some actions)
          pd packagePath).err = none) := by
  refine ⟨fun _ _ _ _ _ => rfl, ?_, ?_⟩
  · intro continueOnError primary actions pd packagePath a ha
    cases primary with
    | error cause => cases ha
    | ok u =>
      have ha' : a ∈ (runPostActions pd packagePath actions).1 := ha
      exact runPostActions_invoked pd packagePath actions a ha'
  · intro continueOnError actions pd packagePath hall
    have h := runPostActions_all_ok pd packagePath actions hall
    constructor
    · show (runPostActions pd packagePath actions).1 = _
      rw [h]
    · show ((runPostActions pd packagePath actions).2.map _) = none
      rw [h]
      rfl

/-- A post-action whose predicate always refuses. -/
def actNever : ConditionableAction := ⟨some (fun _ _ => false), fun _ _ => .ok ()⟩

/-- A post-action with no predicate, hence always eligible. -/
def actAlways : ConditionableAction := ⟨none, fun _ _ => .ok ()⟩

/-- The package descriptor used to exercise the uninstall plugin. -/
def pdExercise : PackageDescriptor := ⟨"pkg"⟩

/-- Witness for C7: with a refused action and an unconditioned action
configured, a failing primary invokes nothing; the unconditioned action is
indeed invoked in the configured list with a passing condition; and a
successful run invokes exactly the predicate-passing actions with no
error. -/
theorem C7_post_actions_gated_by_predicate_witness :
    (npmUninstallPackage true (.error "boom") (some [actNever, actAlways])
        pdExercise "/ws/pkg").invoked = [] ∧
    (actAlways ∈ [actNever, actAlways] ∧
      runConditionOf actAlways pdExercise "/ws/pkg" = true) ∧
    ((npmUninstallPackage true (.ok ()) (some [actNever, actAlways])
        pdExercise "/ws/pkg").invoked =
      [actNever, actAlways].filter (fun a => runConditionOf a pdExercise "/ws/pkg") ∧
    (npmUninstallPackage true (.ok ()) (some [actNever, actAlways])
        pdExercise "/ws/pkg").err = none) := by
  refine ⟨C7_post_actions_gated_by_predicate.1 true "boom" (some [actNever, actAlways])
    pdExercise "/ws/pkg", ?_, ?_⟩
  · refine C7_post_actions_gated_by_predicate.2.1 true (.ok ()) [actNever, actAlways]
      pdExercise "/ws/pkg" actAlways ?_
    show actAlways ∈ [actAlways]
    exact List.mem_singleton.mpr rfl
  · refine C7_post_actions_gated_by_predicate.2.2 true [actNever, actAlways]
      pdExercise "/ws/pkg" ?_
    intro a ha
    rcases List.mem_cons.mp ha with rfl | ha
    · rfl
    · rw [List.mem_singleton.mp ha]
      rfl

/-- C8: registering the same package name twice is idempotent on the
graph — the node list (hence the node count) and the edge list are
unchanged — while the registry keeps at most one payload per name:
re-adding overwrites the payload and leaves every other name's payload
untouched. -/
theorem C8_addPackage_idempotent_graph_overwrites_payload {F : Type}
    (ctx : PackageDependencyContext F) (pd : PackageDescriptor) (f1 f2 : F) :
    ((ctx.addPackage pd f1).addPackage pd f2).packageGraph =
      (ctx.addPackage pd f1).packageGraph ∧
    ((ctx.addPackage pd f1).addPackage pd f2).packageGraph.nodes.length =
      (ctx.addPackage pd f1).packageGraph.nodes.length ∧
    ((ctx.addPackage pd f1).addPackage pd f2).packageGraph.edges =
      (ctx.addPackage pd f1).packageGraph.edges ∧
    ((ctx.addPackage pd f1).addPackage pd f2).packageMap pd.name = some f2 ∧
    (∀ m, m ≠ pd.name →
      ((ctx.addPackage pd f1).addPackage pd f2).packageMap m =
        (ctx.addPackage pd f1).packageMap m) := by
  have hG : (ctx.packageGraph.addNode pd.name).addNode pd.name =
      ctx.packageGraph.addNode pd.name :=
    DepGraph.addNode_of_mem (DepGraph.addNode_self_mem ctx.packageGraph pd.name)
  refine ⟨hG, ?_, ?_, ?_, ?_⟩
  · exact congrArg (fun g => g.nodes.length) hG
  · exact congrArg DepGraph.edges hG
  · show (if pd.name = pd.name then some f2 else _) = some f2
    rw [if_pos rfl]
  · intro m hm
    show (if m = pd.name then some f2 else
        (if m = pd.name then some f1 else ctx.packageMap m)) =
      (if m = pd.name then some f1 else ctx.packageMap m)
    rw [if_neg hm, if_neg hm]

/-- Witness for C8 at a concrete context, package and payloads. -/
theorem C8_addPackage_idempotent_graph_overwrites_payload_witness :
    (((PackageDependencyContext.empty Nat).addPackage ⟨"A"⟩ 1).addPackage
        ⟨"A"⟩ 2).packageGraph =
      ((PackageDependencyContext.empty Nat).addPackage ⟨"A"⟩ 1).packageGraph ∧
    ((((PackageDependencyContext.empty Nat).addPackage ⟨"A"⟩ 1).addPackage
        ⟨"A"⟩ 2).packageGraph.nodes.length =
      ((PackageDependencyContext.empty Nat).addPackage
        ⟨"A"⟩ 1).packageGraph.nodes.length) ∧
    ((((PackageDependencyContext.empty Nat).addPackage ⟨"A"⟩ 1).addPackage
        ⟨"A"⟩ 2).packageGraph.edges =
      ((PackageDependencyContext.empty Nat).addPackage ⟨"A"⟩ 1).packageGraph.edges) ∧
    ((((PackageDependencyContext.empty Nat).addPackage ⟨"A"⟩ 1).addPackage
        ⟨"A"⟩ 2).packageMap (PackageDescriptor.mk "A").name = some 2) ∧
    (∀ m, m ≠ (PackageDescriptor.mk "A").name →
      (((PackageDependencyContext.empty Nat).addPackage ⟨"A"⟩ 1).addPackage
          ⟨"A"⟩ 2).packageMap m =
        ((PackageDependencyContext.empty Nat).addPackage ⟨"A"⟩ 1).packageMap m) :=
  C8_addPackage_idempotent_graph_overwrites_payload
    (PackageDependencyContext.empty Nat) ⟨"A"⟩ 1 2

/-- C9: for every key of the merged configuration, the value comes from
the command-line options when present there, otherwise from the
caller-supplied local options when present there, otherwise from the
defaults. -/
theorem C9_option_precedence (defaults cmdLineOptions localOptions : WOptions)
    (k : OptionKey) :
    (getWorkspacePluginOptions defaults cmdLineOptions (some localOptions)).1 k =
      match cmdLineOptions k with
      | some v => some v
      | none =>
        match localOptions k with
        | some v => some v
        | none => defaults k := by
  cases hc : cmdLineOptions k with
  | some v => simp [getWorkspacePluginOptions, extendOptions, hc]
  | none =>
    cases hl : localOptions k with
    | some v => simp [getWorkspacePluginOptions, extendOptions, hc, hl]
    | none => simp [getWorkspacePluginOptions, extendOptions, hc, hl]

/-- A command-line options object naming a package. -/
def cmdLineNamesPackage : WOptions := fun k =>
  match k with
  | .package => some (.str "cmd-pkg")
  | _ => none

/-- A caller-supplied options object naming a different package. -/
def localNamesPackage : WOptions := fun k =>
  match k with
  | .package => some (.str "local-pkg")
  | .onlyNamedPackage => some (.bool true)
  | _ => none

/-- Witness for C9: where both the command line and the caller name a
package, the command line wins; the caller-only key survives; an untouched
key falls back to the defaults. -/
theorem C9_option_precedence_witness :
    ((getWorkspacePluginOptions (DEFAULT_WORKSPACE_PLUGIN_OPTIONS "/work")
        cmdLineNamesPackage (some localNamesPackage)).1 OptionKey.package =
      some (.str "cmd-pkg")) ∧
    ((getWorkspacePluginOptions (DEFAULT_WORKSPACE_PLUGIN_OPTIONS "/work")
        cmdLineNamesPackage (some localNamesPackage)).1 OptionKey.onlyNamedPackage =
      some (.bool true)) ∧
    ((getWorkspacePluginOptions (DEFAULT_WORKSPACE_PLUGIN_OPTIONS "/work")
        cmdLineNamesPackage (some localNamesPackage)).1 OptionKey.enableLogging =
      some (.bool true)) :=
  ⟨C9_option_precedence (DEFAULT_WORKSPACE_PLUGIN_OPTIONS "/work") cmdLineNamesPackage
      localNamesPackage OptionKey.package,
    C9_option_precedence (DEFAULT_WORKSPACE_PLUGIN_OPTIONS "/work") cmdLineNamesPackage
      localNamesPackage OptionKey.onlyNamedPackage,
    C9_option_precedence (DEFAULT_WORKSPACE_PLUGIN_OPTIONS "/work") cmdLineNamesPackage
      localNamesPackage OptionKey.enableLogging⟩

/-- A caller-supplied options object that turns logging off. -/
def localLoggingOff : WOptions := fun k =>
  match k with
  | .enableLogging => some (.bool false)
  | _ => none

/-- C10: resolving the options is not side-effect-free on the defaults:
the merged result is written back into the module-level defaults object
(both components of the state-passing translation are the same object);
any key supplied only by the caller ends up stored in the defaults; and in
a concrete two-call sequence, a second call made with no local options
returns the value supplied by the earlier caller instead of the original
default. -/
theorem C10_defaults_object_mutated :
    (∀ (defaults cmdLineOptions : WOptions) (localOptions : Option WOptions),
      (getWorkspacePluginOptions defaults cmdLineOptions localOptions).2 =
        (getWorkspacePluginOptions defaults cmdLineOptions localOptions).1) ∧
    (∀ (defaults cmdLineOptions localOptions : WOptions) (k : OptionKey) (v : OptValue),
      cmdLineOptions k = none → localOptions k = some v →
      (getWorkspacePluginOptions defaults cmdLineOptions (some localOptions)).2 k =
        some v) ∧
    (((getWorkspacePluginOptions
        (getWorkspacePluginOptions (DEFAULT_WORKSPACE_PLUGIN_OPTIONS "/work")
          emptyOptions (some localLoggingOff)).2
        emptyOptions none).1 OptionKey.enableLogging = some (.bool false)) ∧
      DEFAULT_WORKSPACE_PLUGIN_OPTIONS "/work" OptionKey.enableLogging =
        some (.bool true)) := by
  refine ⟨fun _ _ _ => rfl, ?_, rfl, rfl⟩
  intro defaults cmdLineOptions localOptions k v hc hl
  simp [getWorkspacePluginOptions, extendOptions, hc, hl]

/-- Witness for C10: the caller-supplied logging switch is written into
the defaults object by the first call. -/
theorem C10_defaults_object_mutated_witness :
    (getWorkspacePluginOptions (DEFAULT_WORKSPACE_PLUGIN_OPTIONS "/work") emptyOptions
        (some localLoggingOff)).2 OptionKey.enableLogging = some (.bool false) :=
  C10_defaults_object_mutated.2.1 (DEFAULT_WORKSPACE_PLUGIN_OPTIONS "/work") emptyOptions
    localLoggingOff OptionKey.enableLogging (.bool false) rfl rfl

end GulpNpmWorkspace
